import Mathlib

/-!
# Verification of the duplicate-file-finder core (`deduper/core.py`)

This file gives a shallow embedding of the core of the duplicate-file finder
and proves the specified properties about it.

Modelling conventions:

* Text stored in the record store (paths, fingerprints, extensions) is modelled
  as `List Char`.  Its lexicographic order is exactly the order used by the
  program: Python string comparison, and SQLite's byte-wise `TEXT` comparison
  (UTF-8 is order-preserving), agree with code-point lexicographic order.
* The SQLite database is modelled as a `DB` value: the `files` table is a list
  of `FileRecord`s and the `unreadable_files` table a list of
  `UnreadableFileRecord`s.  SQL statements are embedded by their denotation on
  these lists; `INSERT OR REPLACE` under the `UNIQUE` path column deletes any
  conflicting row and appends the new one.
* The filesystem is modelled as an oracle `FS`: for each path, whether
  `os.path.exists` sees it (`present`) and whether `os.remove` would succeed
  (`removable`).  A successful `os.remove` makes the path absent.
* Hashing and `stat` are external I/O: a directory scan is modelled as the list
  of files encountered by the walk, each either `readable` (carrying the record
  that `_store_file` would insert) or `unreadable` (carrying the exception
  classification), matching the `try`/`except (OSError, PermissionError)`
  structure of `scan_directory`.
-/

/-- Database text (paths, fingerprints, extensions): a string as its list of
characters, compared lexicographically. -/
abbrev Str := List Char

/-- Convert a Lean string literal to database text. -/
def str (s : String) : Str := s.toList

/-- A row of the `files` table (schema in `_init_database`): absolute path
(`UNIQUE`), filename stem, lowercased extension, content hash, size in bytes.
The autoincrement id and timestamp play no role in any query and are omitted. -/
structure FileRecord where
  path : Str
  filename : Str
  extension : Str
  hash : Str
  size : Nat
deriving DecidableEq

/-- A row of the `unreadable_files` table: path and exception class name. -/
structure UnreadableFileRecord where
  path : Str
  error_type : String
deriving DecidableEq

/-- The state of the SQLite database. -/
structure DB where
  files : List FileRecord
  unreadable_files : List UnreadableFileRecord
deriving DecidableEq

/-- The `UNIQUE` constraint on `files.path`: no two rows share a path. -/
def pathsNodup (db : DB) : Prop := (db.files.map (fun f => f.path)).Nodup

instance (db : DB) : Decidable (pathsNodup db) := by
  unfold pathsNodup
  infer_instance

/-- Effect of `INSERT OR REPLACE INTO files` on the `files` rows: any row with
the same (unique) path is deleted and the new row inserted. -/
def upsertFiles (rows : List FileRecord) (r : FileRecord) : List FileRecord :=
  rows.filter (fun f => decide (f.path ≠ r.path)) ++ [r]

/-- `_store_file`: hash and stat the file (carried inside `r`) and
`INSERT OR REPLACE` the row. -/
def _store_file (db : DB) (r : FileRecord) : DB :=
  { db with files := upsertFiles db.files r }

/-- `_log_unreadable_file`: `INSERT INTO unreadable_files` (plain insert,
append-only). -/
def _log_unreadable_file (db : DB) (p : Str) (error_type : String) : DB :=
  { db with unreadable_files := db.unreadable_files ++ [⟨p, error_type⟩] }

/-- One file met by the directory walk in `scan_directory`: either
`_store_file` succeeds with record `r`, or it raises
`OSError`/`PermissionError` with the given class name. -/
inductive ScanItem where
  | readable (r : FileRecord)
  | unreadable (p : Str) (error_type : String)
deriving DecidableEq

/-- Whether the item is a successfully read file. -/
def ScanItem.isReadable : ScanItem → Bool
  | .readable _ => true
  | .unreadable _ _ => false

/-- The record stored for a readable item, if any. -/
def ScanItem.storedRecord : ScanItem → Option FileRecord
  | .readable r => some r
  | .unreadable _ _ => none

/-- The audit row logged for an unreadable item, if any. -/
def ScanItem.loggedRow : ScanItem → Option UnreadableFileRecord
  | .readable _ => none
  | .unreadable p e => some ⟨p, e⟩

/-- The body of the scan loop: `try: _store_file; files_scanned += 1` and
`except (OSError, PermissionError): _log_unreadable_file; continue`. -/
def scanStep : DB × Nat → ScanItem → DB × Nat
  | (db, n), .readable r => (_store_file db r, n + 1)
  | (db, n), .unreadable p e => (_log_unreadable_file db p e, n)

/-- `scan_directory`: fold the scan loop over the files met by the walk,
starting from `files_scanned = 0`; returns the new database state and the
count. -/
def scan_directory (db : DB) (items : List ScanItem) : DB × Nat :=
  items.foldl scanStep (db, 0)

/-- Python's `sorted` on strings / SQL `ORDER BY` on a `TEXT` column:
lexicographic ascending sort. -/
def sortStrs (l : List Str) : List Str :=
  List.insertionSort (fun a b => a ≤ b) l

/-- `SELECT COUNT(*) FROM files WHERE hash = h` (the `GROUP BY hash` count). -/
def hashCount (db : DB) (h : Str) : Nat :=
  (db.files.filter (fun f => decide (f.hash = h))).length

/-- The paths of all rows carrying fingerprint `h`. -/
def pathsWithHash (db : DB) (h : Str) : List Str :=
  (db.files.filter (fun f => decide (f.hash = h))).map (fun f => f.path)

/-- The subquery `SELECT hash FROM files GROUP BY hash HAVING COUNT(*) > 1`,
in ascending order (the outer query's `ORDER BY hash`), without repetition
(`GROUP BY`). -/
def dupHashes (db : DB) : List Str :=
  sortStrs (((db.files.map (fun f => f.hash)).dedup).filter
    (fun h => decide (1 < hashCount db h)))

/-- `find_duplicates`: denotation of the grouping query plus the dict-building
loop.  The rows `SELECT hash, path ... ORDER BY hash, path` grouped by first
component give: one entry per duplicated hash, in ascending hash order, each
holding that hash's paths in ascending order. -/
def find_duplicates (db : DB) : List (Str × List Str) :=
  (dupHashes db).map (fun h => (h, sortStrs (pathsWithHash db h)))

/-- Filesystem oracle: which paths `os.path.exists` sees, and which of those
`os.remove` can delete (otherwise it raises `OSError`/`PermissionError`). -/
structure FS where
  present : Str → Bool
  removable : Str → Bool

/-- A successful `os.remove p` makes `p` absent. -/
def os_remove (fs : FS) (p : Str) : FS :=
  { fs with present := fun q => if q = p then false else fs.present q }

/-- `DELETE FROM files WHERE path = ?`. -/
def delete_record (db : DB) (p : Str) : DB :=
  { db with files := db.files.filter (fun f => decide (f.path ≠ p)) }

/-- The per-group candidate selection in `delete_duplicates`:
`sorted_files = sorted(file_list)`, then `sorted_files[1:]` when keeping the
first, `sorted_files[:-1]` when keeping the last. -/
def filesToDelete (keep_first : Bool) (file_list : List Str) : List Str :=
  if keep_first then (sortStrs file_list).drop 1 else (sortStrs file_list).dropLast

/-- All deletion candidates, in the order the two nested loops visit them. -/
def deleteCandidates (keep_first : Bool) (groups : List (Str × List Str)) : List Str :=
  groups.flatMap (fun g => filesToDelete keep_first g.2)

/-- The non-dry-run loop body for one candidate: `if os.path.exists: os.remove;
DELETE FROM files; append` inside `try`/`except (OSError, PermissionError):
continue`.  A failing `os.remove` skips both the row deletion and the append. -/
def deleteOne : DB × FS × List Str → Str → DB × FS × List Str
  | (db, fs, acc), p =>
    if fs.present p then
      if fs.removable p then (delete_record db p, os_remove fs p, acc ++ [p])
      else (db, fs, acc)
    else (db, fs, acc)

/-- `delete_duplicates`: candidates are taken per group from `find_duplicates`;
in dry-run every candidate is appended and nothing is touched, otherwise the
removal loop runs (and the transaction is committed). -/
def delete_duplicates (db : DB) (fs : FS) (keep_first dry_run : Bool) :
    DB × FS × List Str :=
  if dry_run then (db, fs, deleteCandidates keep_first (find_duplicates db))
  else (deleteCandidates keep_first (find_duplicates db)).foldl deleteOne (db, fs, [])

/-- `clear_database`: `DELETE FROM files` only. -/
def clear_database (db : DB) : DB :=
  { db with files := [] }

/-- `SELECT COUNT(*) FROM files` from `get_statistics`. -/
def total_files (db : DB) : Nat := db.files.length

/-- Per-extension `COUNT(*)` of the `GROUP BY extension` query. -/
def extCount (db : DB) (e : Str) : Nat :=
  (db.files.filter (fun f => decide (f.extension = e))).length

/-- Per-extension `SUM(size)` of the `GROUP BY extension` query. -/
def extTotalSize (db : DB) (e : Str) : Nat :=
  ((db.files.filter (fun f => decide (f.extension = e))).map (fun f => f.size)).sum

/-- The Python line `key = ext if ext else ""`: a falsy (empty) extension is
reported under the empty-string key. -/
def keyOf (e : Str) : Str := if e = [] then [] else e

/-- `ORDER BY count DESC` over the distinct extensions. -/
def sortByCountDesc (db : DB) (l : List Str) : List Str :=
  List.insertionSort (fun a b => extCount db b ≤ extCount db a) l

/-- `get_statistics_by_extension`: one entry per distinct extension
(`GROUP BY`), holding `(key, count, total_size)`, ordered by descending count. -/
def get_statistics_by_extension (db : DB) : List (Str × Nat × Nat) :=
  (sortByCountDesc db ((db.files.map (fun f => f.extension)).dedup)).map
    (fun e => (keyOf e, extCount db e, extTotalSize db e))

/-- `calculate_file_hash`: the algorithm dispatch `if algorithm == "md5": ...
else: sha256`.  The digests themselves are external (`hashlib`); they are
passed as functions from the file's bytes (the concatenation of the 64 KiB
chunks fed to the incremental hasher) to a hex string. -/
def calculate_file_hash (md5Digest sha256Digest : List Nat → Str)
    (algorithm : String) (contents : List Nat) : Str :=
  if algorithm = "md5" then md5Digest contents else sha256Digest contents

/-- Modelled from the spec: the `DuplicateGroup` value type lives in
`dup_file_finder/core.py`, which is not among the available sources (only its
tests are); per spec §3/§4.5 it is an immutable record of fingerprint,
per-file size, and the sorted member paths. -/
structure DuplicateGroup where
  hash_ : Str
  file_size : Nat
  file_paths : List Str
deriving DecidableEq

/-- Modelled from the spec: `size()` — count of member paths. -/
def DuplicateGroup.size (g : DuplicateGroup) : Nat := g.file_paths.length

/-- Modelled from the spec: `total_size()` — `size() * per_file_size`
(Python integer arithmetic, hence `Int`). -/
def DuplicateGroup.total_size (g : DuplicateGroup) : Int :=
  (g.size : Int) * (g.file_size : Int)

/-- Modelled from the spec: `wasted_space()` — `(size() - 1) * per_file_size`
(Python integer arithmetic, hence `Int`). -/
def DuplicateGroup.wasted_space (g : DuplicateGroup) : Int :=
  ((g.size : Int) - 1) * (g.file_size : Int)

/-! ## Concrete example state, used to witness the hypotheses below -/

/-- Example row: `/a.txt`, fingerprint `h1`. -/
def exR1 : FileRecord :=
  { path := str "/a.txt", filename := str "a", extension := str ".txt"
    hash := str "h1", size := 1 }

/-- Example row: `/b.txt`, fingerprint `h1` (duplicate of `/a.txt`). -/
def exR2 : FileRecord :=
  { path := str "/b.txt", filename := str "b", extension := str ".txt"
    hash := str "h1", size := 1 }

/-- Example row: `/c`, fingerprint `h2`, no extension. -/
def exR3 : FileRecord :=
  { path := str "/c", filename := str "c", extension := str ""
    hash := str "h2", size := 2 }

/-- Example database state: two duplicates and one unique file. -/
def exDB : DB := { files := [exR1, exR2, exR3], unreadable_files := [] }

/-- Example filesystem: every path present, everything removable except
`/b.txt`. -/
def exFS : FS :=
  { present := fun _ => true, removable := fun q => decide (q ≠ str "/b.txt") }

/-- A fresh record for an already-present path (a re-scan of `/a.txt` with new
contents), used below with the upsert claim. -/
def exR1v2 : FileRecord :=
  { path := str "/a.txt", filename := str "a", extension := str ".txt"
    hash := str "h9", size := 5 }

/-- Whether a deletion candidate would actually be removed: it still exists on
the filesystem and `os.remove` succeeds on it. -/
def removalOk (fs : FS) (p : Str) : Bool := fs.present p && fs.removable p

/-! ## Claims -/

/-- Claim C9: `clear_database` empties the `files` table and leaves the
`unreadable_files` table unchanged, for every store state. -/
theorem claim_C9_clear_frame (db : DB) :
    (clear_database db).files = [] ∧
    (clear_database db).unreadable_files = db.unreadable_files :=
  ⟨rfl, rfl⟩

/-- Claim C7: for every constructed `DuplicateGroup`, `total_size()` equals
`size() * per_file_size` and `wasted_space()` equals
`(size() - 1) * per_file_size`, where `size()` is the number of member paths. -/
theorem claim_C7_group_size_accounting (g : DuplicateGroup) :
    g.total_size = (g.file_paths.length : Int) * (g.file_size : Int) ∧
    g.wasted_space = ((g.file_paths.length : Int) - 1) * (g.file_size : Int) :=
  ⟨rfl, rfl⟩

/-- Claim C10: for every algorithm string other than `"md5"` (including
unrecognized names), `calculate_file_hash` silently computes the SHA-256
digest: no error is possible, and the output equals the output for
`"sha256"` on the same bytes. -/
theorem claim_C10_unknown_algorithm_sha256 (md5Digest sha256Digest : List Nat → Str)
    (algorithm : String) (contents : List Nat) (h : algorithm ≠ "md5") :
    calculate_file_hash md5Digest sha256Digest algorithm contents
      = calculate_file_hash md5Digest sha256Digest "sha256" contents := by
  simp [calculate_file_hash, h]

/-- Witness for C10 at the unrecognized algorithm `"sha1"`. -/
theorem claim_C10_witness :
    calculate_file_hash (fun _ => str "M") (fun _ => str "S") "sha1" [0, 1]
      = calculate_file_hash (fun _ => str "M") (fun _ => str "S") "sha256" [0, 1] :=
  claim_C10_unknown_algorithm_sha256 (fun _ => str "M") (fun _ => str "S")
    "sha1" [0, 1] (by decide)

/-- Claim C1: for every store state and filesystem state, `delete_duplicates`
with `dry_run = True` leaves the filesystem and the `files` table unchanged
and returns exactly the deletion-candidate list: for each duplicate group, all
sorted members except the kept one. -/
theorem claim_C1_dry_run_frame (db : DB) (fs : FS) (keep_first : Bool) :
    (delete_duplicates db fs keep_first true).1 = db ∧
    (delete_duplicates db fs keep_first true).2.1 = fs ∧
    (delete_duplicates db fs keep_first true).2.2
      = (find_duplicates db).flatMap (fun g =>
          if keep_first then (sortStrs g.2).drop 1 else (sortStrs g.2).dropLast) :=
  ⟨rfl, rfl, rfl⟩

/-- A duplicate-free list whose members are all equal has at most one member. -/
theorem nodup_const_length_le_one {α : Type} {l : List α} {p : α}
    (hn : l.Nodup) (hc : ∀ x ∈ l, x = p) : l.length ≤ 1 := by
  match l with
  | [] => simp
  | [a] => simp
  | a :: b :: t =>
    exfalso
    have ha : a = p := hc a (by simp)
    have hb : b = p := hc b (by simp)
    rw [List.nodup_cons] at hn
    have hab : a = b := ha.trans hb.symm
    cases hab
    exact hn.1 (List.mem_cons_self _ _)

/-- Under the `UNIQUE` path constraint, at most one `files` row matches any
given path. -/
theorem filter_path_length_le_one {db : DB} (hnd : pathsNodup db) (p : Str) :
    (db.files.filter (fun f => decide (f.path = p))).length ≤ 1 := by
  have hsb : List.Sublist
      ((db.files.filter (fun f => decide (f.path = p))).map (fun f => f.path))
      (db.files.map (fun f => f.path)) :=
    List.Sublist.map _ (List.filter_sublist _)
  have hsub : ((db.files.filter (fun f => decide (f.path = p))).map
      (fun f => f.path)).Nodup := List.Nodup.sublist hsb hnd
  have hmap : ∀ x ∈ (db.files.filter (fun f => decide (f.path = p))).map
      (fun f => f.path), x = p := by
    intro x hx
    rcases List.mem_map.mp hx with ⟨f, hf, rfl⟩
    exact of_decide_eq_true (List.mem_filter.mp hf).2
  have := nodup_const_length_le_one hsub hmap
  simpa using this

/-- Claim C4: the store holds at most one `FileRecord` per path at all times:
storing a file whose path is already present replaces the existing record
rather than adding a second row, so every store of every path preserves path
uniqueness. -/
theorem claim_C4_upsert_path_unique (db : DB) (r : FileRecord) (hnd : pathsNodup db) :
    pathsNodup (_store_file db r) ∧
    (_store_file db r).files.filter (fun f => decide (f.path = r.path)) = [r] ∧
    (∀ p : Str,
      ((_store_file db r).files.filter (fun f => decide (f.path = p))).length ≤ 1) ∧
    (∀ q : Str, q ≠ r.path →
      (_store_file db r).files.filter (fun f => decide (f.path = q))
        = db.files.filter (fun f => decide (f.path = q))) := by
  have h1 : pathsNodup (_store_file db r) := by
    unfold pathsNodup _store_file upsertFiles
    rw [List.map_append, List.nodup_append]
    refine ⟨?_, by simp, ?_⟩
    · exact List.Nodup.sublist (List.Sublist.map _ (List.filter_sublist _)) hnd
    · intro x hx hx2
      rcases List.mem_map.mp hx with ⟨f, hf, rfl⟩
      have hne := of_decide_eq_true (List.mem_filter.mp hf).2
      simp only [List.map_cons, List.map_nil, List.mem_singleton] at hx2
      exact hne hx2
  refine ⟨h1, ?_, fun p => filter_path_length_le_one h1 p, ?_⟩
  · unfold _store_file upsertFiles
    rw [List.filter_append, List.filter_filter]
    have hl : db.files.filter
        (fun f => decide (f.path = r.path) && decide (f.path ≠ r.path)) = [] := by
      apply List.filter_eq_nil_iff.mpr
      intro f _
      by_cases h : f.path = r.path <;> simp [h]
    rw [hl]
    simp
  · intro q hq
    unfold _store_file upsertFiles
    rw [List.filter_append, List.filter_filter]
    have h41 : db.files.filter (fun f => decide (f.path = q) && decide (f.path ≠ r.path))
        = db.files.filter (fun f => decide (f.path = q)) := by
      apply List.filter_congr
      intro f _
      by_cases h : f.path = q <;> simp [h, hq]
    have h42 : List.filter (fun f => decide (f.path = q)) [r] = [] := by
      simp [Ne.symm hq]
    rw [h41, h42, List.append_nil]

/-- Witness for C4: re-storing path `/a.txt` in the example store replaces its
row and keeps paths unique. -/
theorem claim_C4_witness :
    pathsNodup (_store_file exDB exR1v2) ∧
    (_store_file exDB exR1v2).files.filter (fun f => decide (f.path = exR1v2.path))
      = [exR1v2] ∧
    (∀ p : Str,
      ((_store_file exDB exR1v2).files.filter (fun f => decide (f.path = p))).length ≤ 1) ∧
    (∀ q : Str, q ≠ exR1v2.path →
      (_store_file exDB exR1v2).files.filter (fun f => decide (f.path = q))
        = exDB.files.filter (fun f => decide (f.path = q))) :=
  claim_C4_upsert_path_unique exDB exR1v2 (by decide)

/-- The scan loop invariant: starting from any database state and running
count, the fold adds one to the count per readable file, appends one audit row
per unreadable file, and upserts exactly the readable records in order. -/
theorem scan_foldl_spec (items : List ScanItem) :
    ∀ (db : DB) (n : Nat),
      (items.foldl scanStep (db, n)).2
          = n + (items.filter ScanItem.isReadable).length
      ∧ (items.foldl scanStep (db, n)).1.unreadable_files
          = db.unreadable_files ++ items.filterMap ScanItem.loggedRow
      ∧ (items.foldl scanStep (db, n)).1.files
          = (items.filterMap ScanItem.storedRecord).foldl upsertFiles db.files := by
  induction items with
  | nil => intro db n; simp
  | cons it t ih =>
    intro db n
    cases it with
    | readable r =>
      obtain ⟨h1, h2, h3⟩ := ih (_store_file db r) (n + 1)
      refine ⟨?_, ?_, ?_⟩
      · show (t.foldl scanStep (_store_file db r, n + 1)).2 = _
        have hf : (List.filter ScanItem.isReadable (ScanItem.readable r :: t)).length
            = (List.filter ScanItem.isReadable t).length + 1 := by
          simp [List.filter_cons, ScanItem.isReadable]
        rw [h1, hf]
        omega
      · show (t.foldl scanStep (_store_file db r, n + 1)).1.unreadable_files = _
        rw [h2]
        simp [_store_file, ScanItem.loggedRow, List.filterMap_cons]
      · show (t.foldl scanStep (_store_file db r, n + 1)).1.files = _
        rw [h3]
        simp [ScanItem.storedRecord, List.filterMap_cons, _store_file]
    | unreadable p e =>
      obtain ⟨h1, h2, h3⟩ := ih (_log_unreadable_file db p e) n
      refine ⟨?_, ?_, ?_⟩
      · show (t.foldl scanStep (_log_unreadable_file db p e, n)).2 = _
        rw [h1]
        simp [List.filter_cons, ScanItem.isReadable]
      · show (t.foldl scanStep (_log_unreadable_file db p e, n)).1.unreadable_files = _
        rw [h2]
        simp [_log_unreadable_file, ScanItem.loggedRow, List.filterMap_cons,
          List.append_assoc]
      · show (t.foldl scanStep (_log_unreadable_file db p e, n)).1.files = _
        rw [h3]
        simp [ScanItem.storedRecord, List.filterMap_cons, _log_unreadable_file]

/-- Claim C5: a per-file read or permission failure never aborts a scan: each
failing file is logged as one appended `unreadable_files` row (never
deduplicated) and scanning continues; the returned count is exactly the number
of successfully hashed and upserted files, excluding every unreadable one, and
only the readable records reach the `files` table. -/
theorem claim_C5_scan_error_recovery (db : DB) (items : List ScanItem) :
    (scan_directory db items).2 = (items.filter ScanItem.isReadable).length ∧
    (scan_directory db items).1.unreadable_files
      = db.unreadable_files ++ items.filterMap ScanItem.loggedRow ∧
    (scan_directory db items).1.files
      = (items.filterMap ScanItem.storedRecord).foldl upsertFiles db.files := by
  obtain ⟨h1, h2, h3⟩ := scan_foldl_spec items db 0
  refine ⟨?_, h2, h3⟩
  show (items.foldl scanStep (db, 0)).2 = _
  rw [h1]
  omega

/-- `sortStrs` sorts ascending. -/
theorem sortStrs_sorted (l : List Str) : (sortStrs l).Sorted (fun a b => a ≤ b) :=
  List.sorted_insertionSort _ l

/-- `sortStrs` permutes its input. -/
theorem sortStrs_perm (l : List Str) : (sortStrs l).Perm l :=
  List.perm_insertionSort _ l

/-- `sortStrs` preserves freedom from duplicates. -/
theorem sortStrs_nodup {l : List Str} (h : l.Nodup) : (sortStrs l).Nodup :=
  (sortStrs_perm l).nodup_iff.mpr h

/-- The duplicated-hash list repeats no hash (`GROUP BY`). -/
theorem dupHashes_nodup (db : DB) : (dupHashes db).Nodup :=
  sortStrs_nodup ((List.nodup_dedup _).filter _)

/-- A hash is in the duplicated-hash list exactly when at least two rows carry
it (`HAVING COUNT(*) > 1`). -/
theorem mem_dupHashes (db : DB) (h : Str) :
    h ∈ dupHashes db ↔ 2 ≤ hashCount db h := by
  unfold dupHashes
  rw [(sortStrs_perm _).mem_iff, List.mem_filter]
  constructor
  · rintro ⟨-, hcnt⟩
    have := of_decide_eq_true hcnt
    omega
  · intro h2
    refine ⟨?_, by simp; omega⟩
    rw [List.mem_dedup]
    have hlen : 0 < (db.files.filter (fun f => decide (f.hash = h))).length := by
      unfold hashCount at h2
      omega
    rcases List.exists_mem_of_ne_nil _ (List.length_pos.mp hlen) with ⟨f, hf⟩
    rcases List.mem_filter.mp hf with ⟨hfl, hfh⟩
    exact List.mem_map.mpr ⟨f, hfl, of_decide_eq_true hfh⟩

/-- The group keys returned by `find_duplicates` are the duplicated hashes. -/
theorem find_duplicates_keys (db : DB) :
    (find_duplicates db).map Prod.fst = dupHashes db := by
  unfold find_duplicates
  rw [List.map_map]
  exact List.map_id' _

/-- A group of `find_duplicates` is determined by its key. -/
theorem mem_find_duplicates (db : DB) {g : Str × List Str}
    (hg : g ∈ find_duplicates db) :
    g.1 ∈ dupHashes db ∧ g.2 = sortStrs (pathsWithHash db g.1) := by
  unfold find_duplicates at hg
  rcases List.mem_map.mp hg with ⟨h, hh, rfl⟩
  exact ⟨hh, rfl⟩

/-- Claim C3: `find_duplicates` returns exactly the fingerprints shared by at
least two stored rows (single-path fingerprints never appear); each group's
paths are sorted ascending and are precisely the paths carrying the group's
fingerprint; and the groups are ordered strictly ascending by fingerprint. -/
theorem claim_C3_find_duplicates (db : DB) :
    ((find_duplicates db).map Prod.fst).Sorted (fun a b => a < b)
    ∧ (∀ h : Str, h ∈ (find_duplicates db).map Prod.fst ↔ 2 ≤ hashCount db h)
    ∧ (∀ g ∈ find_duplicates db,
        g.2.Sorted (fun a b => a ≤ b) ∧ g.2.Perm (pathsWithHash db g.1)) := by
  refine ⟨?_, ?_, ?_⟩
  · rw [find_duplicates_keys]
    refine List.Sorted.lt_of_le ?_ (dupHashes_nodup db)
    unfold dupHashes
    exact sortStrs_sorted _
  · intro h
    rw [find_duplicates_keys]
    exact mem_dupHashes db h
  · intro g hg
    obtain ⟨-, h2⟩ := mem_find_duplicates db hg
    exact ⟨h2 ▸ sortStrs_sorted _, h2 ▸ sortStrs_perm _⟩

/-- Witness for C3 on the example store: fingerprint `h1` is reported (it has
two paths) and its group is the sorted pair of paths. -/
theorem claim_C3_witness :
    (str "h1" ∈ (find_duplicates exDB).map Prod.fst ↔ 2 ≤ hashCount exDB (str "h1"))
    ∧ ((str "h1", [str "/a.txt", str "/b.txt"]).2.Sorted (fun a b => a ≤ b)
        ∧ (str "h1", [str "/a.txt", str "/b.txt"]).2.Perm
            (pathsWithHash exDB (str "h1", [str "/a.txt", str "/b.txt"]).1)) := by
  obtain ⟨-, h2, h3⟩ := claim_C3_find_duplicates exDB
  exact ⟨h2 (str "h1"), h3 (str "h1", [str "/a.txt", str "/b.txt"]) (by decide)⟩

/-- Under the `UNIQUE` path constraint, the paths of one fingerprint repeat
no path. -/
theorem pathsWithHash_nodup {db : DB} (hnd : pathsNodup db) (h : Str) :
    (pathsWithHash db h).Nodup :=
  List.Nodup.sublist (List.Sublist.map _ (List.filter_sublist _)) hnd

/-- A fingerprint's path list is as long as its row count. -/
theorem pathsWithHash_length (db : DB) (h : Str) :
    (pathsWithHash db h).length = hashCount db h := by
  unfold pathsWithHash hashCount
  rw [List.length_map]


/-- Claim C6: per duplicate group, `keep_first = True` excludes exactly the
lexicographically smallest member from the deletion candidates (every other
member is a candidate), and `keep_first = False` excludes exactly the
lexicographically largest member. -/
theorem claim_C6_keep_policy (db : DB) (hnd : pathsNodup db) :
    ∀ g ∈ find_duplicates db,
      (∃ m, m ∈ g.2 ∧ (∀ x ∈ g.2, m ≤ x) ∧ m ∉ filesToDelete true g.2 ∧
        (filesToDelete true g.2).Perm (g.2.filter (fun x => decide (x ≠ m))))
      ∧ (∃ M, M ∈ g.2 ∧ (∀ x ∈ g.2, x ≤ M) ∧ M ∉ filesToDelete false g.2 ∧
        (filesToDelete false g.2).Perm (g.2.filter (fun x => decide (x ≠ M)))) := by
  intro g hg
  obtain ⟨hk, hgeq⟩ := mem_find_duplicates db hg
  have hnd2 : g.2.Nodup := by
    rw [hgeq]
    exact sortStrs_nodup (pathsWithHash_nodup hnd _)
  have hlen : 2 ≤ g.2.length := by
    rw [hgeq, (sortStrs_perm _).length_eq, pathsWithHash_length]
    exact (mem_dupHashes db g.1).mp hk
  have hsp : (sortStrs g.2).Perm g.2 := sortStrs_perm g.2
  have hss : (sortStrs g.2).Sorted (fun a b => a ≤ b) := sortStrs_sorted g.2
  have hsnd : (sortStrs g.2).Nodup := hsp.nodup_iff.mpr hnd2
  have hne : sortStrs g.2 ≠ [] := by
    intro h0
    have := hsp.length_eq
    rw [h0] at this
    simp at this
    rw [← this] at hlen
    simp at hlen
  constructor
  · -- keep_first = True: the head of the sorted order is kept
    obtain ⟨m, t, hcons⟩ := List.exists_cons_of_ne_nil hne
    have hssc : (m :: t).Sorted (fun a b => a ≤ b) := hcons ▸ hss
    have hndc : (m :: t).Nodup := hcons ▸ hsnd
    have hmnotint : m ∉ t := (List.nodup_cons.mp hndc).1
    have hftd : filesToDelete true g.2 = t := by
      unfold filesToDelete
      rw [if_pos rfl, hcons]
      rfl
    refine ⟨m, ?_, ?_, ?_, ?_⟩
    · refine hsp.mem_iff.mp ?_
      rw [hcons]
      exact List.mem_cons_self m t
    · intro x hx
      have hxs : x ∈ m :: t := by
        rw [← hcons]
        exact hsp.mem_iff.mpr hx
      rcases List.mem_cons.mp hxs with h | h
      · subst h
        exact le_refl x
      · exact (List.sorted_cons.mp hssc).1 x h
    · rw [hftd]
      exact hmnotint
    · have ht : t.filter (fun x => decide (x ≠ m)) = t :=
        List.filter_eq_self.mpr
          (fun x hx => decide_eq_true (fun hxm => hmnotint (hxm ▸ hx)))
      have hfil : (sortStrs g.2).filter (fun x => decide (x ≠ m)) = t := by
        rw [hcons, List.filter_cons, if_neg (by simp)]
        exact ht
      rw [hftd, ← hfil]
      exact hsp.filter _
  · -- keep_first = False: the last of the sorted order is kept
    have hner : (sortStrs g.2).reverse ≠ [] := by
      simpa using hne
    obtain ⟨M, rt, hrev⟩ := List.exists_cons_of_ne_nil hner
    have hcat : sortStrs g.2 = rt.reverse ++ [M] := by
      have h2 := congrArg List.reverse hrev
      simpa using h2
    obtain ⟨init, hinit⟩ : ∃ init, sortStrs g.2 = init ++ [M] := ⟨rt.reverse, hcat⟩
    have hssa : (init ++ [M]).Sorted (fun a b => a ≤ b) := hinit ▸ hss
    have hnda : (init ++ [M]).Nodup := hinit ▸ hsnd
    have hMni : M ∉ init := fun hmem =>
      (List.nodup_append.mp hnda).2.2 hmem (List.mem_singleton.mpr rfl)
    have hftd : filesToDelete false g.2 = init := by
      unfold filesToDelete
      rw [if_neg (by simp), hinit, List.dropLast_concat]
    refine ⟨M, ?_, ?_, ?_, ?_⟩
    · refine hsp.mem_iff.mp ?_
      rw [hinit]
      exact List.mem_append_right init (List.mem_singleton.mpr rfl)
    · intro x hx
      have hxs : x ∈ init ++ [M] := by
        rw [← hinit]
        exact hsp.mem_iff.mpr hx
      rcases List.mem_append.mp hxs with h | h
      · exact (List.pairwise_append.mp hssa).2.2 x h M (List.mem_singleton.mpr rfl)
      · rw [List.mem_singleton.mp h]
    · rw [hftd]
      exact hMni
    · have hfin : init.filter (fun x => decide (x ≠ M)) = init :=
        List.filter_eq_self.mpr
          (fun x hx => decide_eq_true (fun hxM => hMni (hxM ▸ hx)))
      have hfil : (sortStrs g.2).filter (fun x => decide (x ≠ M)) = init := by
        have h1 : List.filter (fun x => decide (x ≠ M)) [M] = [] := by
          simp
        rw [hinit, List.filter_append, hfin, h1, List.append_nil]
      rw [hftd, ← hfil]
      exact hsp.filter _

/-- Witness for C6 on the example store: in the group of fingerprint `h1`,
`/a.txt` is the kept minimum under keep-first and `/b.txt` the kept maximum
under keep-last. -/
theorem claim_C6_witness :
    (∃ m, m ∈ (str "h1", [str "/a.txt", str "/b.txt"]).2 ∧
      (∀ x ∈ (str "h1", [str "/a.txt", str "/b.txt"]).2, m ≤ x) ∧
      m ∉ filesToDelete true (str "h1", [str "/a.txt", str "/b.txt"]).2 ∧
      (filesToDelete true (str "h1", [str "/a.txt", str "/b.txt"]).2).Perm
        ((str "h1", [str "/a.txt", str "/b.txt"]).2.filter (fun x => decide (x ≠ m))))
    ∧ (∃ M, M ∈ (str "h1", [str "/a.txt", str "/b.txt"]).2 ∧
      (∀ x ∈ (str "h1", [str "/a.txt", str "/b.txt"]).2, x ≤ M) ∧
      M ∉ filesToDelete false (str "h1", [str "/a.txt", str "/b.txt"]).2 ∧
      (filesToDelete false (str "h1", [str "/a.txt", str "/b.txt"]).2).Perm
        ((str "h1", [str "/a.txt", str "/b.txt"]).2.filter (fun x => decide (x ≠ M)))) :=
  claim_C6_keep_policy exDB (by decide)
    (str "h1", [str "/a.txt", str "/b.txt"]) (by decide)

/-- Every deletion candidate of a group carries that group's fingerprint. -/
theorem mem_filesToDelete {db : DB} {g : Str × List Str}
    (hg : g ∈ find_duplicates db) {kf : Bool} {x : Str}
    (hx : x ∈ filesToDelete kf g.2) : x ∈ pathsWithHash db g.1 := by
  obtain ⟨-, hgeq⟩ := mem_find_duplicates db hg
  have h1 : x ∈ sortStrs g.2 := by
    unfold filesToDelete at hx
    cases kf
    · exact (List.dropLast_sublist _).subset hx
    · exact (List.drop_sublist _ _).subset hx
  have h2 : x ∈ g.2 := (sortStrs_perm _).mem_iff.mp h1
  rw [hgeq] at h2
  exact (sortStrs_perm _).mem_iff.mp h2

/-- Under the `UNIQUE` path constraint, distinct fingerprints own disjoint
path sets. -/
theorem pathsWithHash_disjoint {db : DB} (hnd : pathsNodup db) {h1 h2 : Str}
    (hne : h1 ≠ h2) :
    List.Disjoint (pathsWithHash db h1) (pathsWithHash db h2) := by
  intro p hp1 hp2
  rcases List.mem_map.mp hp1 with ⟨f1, hf1, hp1e⟩
  rcases List.mem_map.mp hp2 with ⟨f2, hf2, hp2e⟩
  rcases List.mem_filter.mp hf1 with ⟨hf1l, hf1h⟩
  rcases List.mem_filter.mp hf2 with ⟨hf2l, hf2h⟩
  have heq : f1 = f2 :=
    List.inj_on_of_nodup_map hnd hf1l hf2l (by rw [hp1e, hp2e])
  apply hne
  rw [← of_decide_eq_true hf1h, ← of_decide_eq_true hf2h, heq]

/-- Under the `UNIQUE` path constraint, no path occurs twice among the
deletion candidates of one `delete_duplicates` pass. -/
theorem deleteCandidates_nodup {db : DB} (hnd : pathsNodup db) (kf : Bool) :
    (deleteCandidates kf (find_duplicates db)).Nodup := by
  unfold deleteCandidates
  rw [List.nodup_flatMap]
  constructor
  · intro g hg
    obtain ⟨-, hgeq⟩ := mem_find_duplicates db hg
    have hs : (sortStrs g.2).Nodup := by
      rw [hgeq]
      exact sortStrs_nodup (sortStrs_nodup (pathsWithHash_nodup hnd _))
    unfold filesToDelete
    cases kf
    · exact List.Nodup.sublist (List.dropLast_sublist _) hs
    · exact List.Nodup.sublist (List.drop_sublist _ _) hs
  · have hkeys : ((find_duplicates db).map Prod.fst).Nodup := by
      rw [find_duplicates_keys]
      exact dupHashes_nodup db
    have hpw : (find_duplicates db).Pairwise (fun a b => a.1 ≠ b.1) :=
      List.pairwise_map.mp hkeys
    refine List.Pairwise.imp_of_mem ?_ hpw
    intro a b ha hb hne1
    intro x hxa hxb
    exact pathsWithHash_disjoint hnd hne1 (mem_filesToDelete ha hxa)
      (mem_filesToDelete hb hxb)

/-- The invariant of the non-dry-run removal loop: over duplicate-free
candidates it appends exactly those that exist and are removable (judged
against the starting filesystem), deletes exactly their rows, leaves the audit
table alone, removes exactly them from the filesystem, and changes nothing
else. -/
theorem deleteOne_foldl_spec :
    ∀ (cands : List Str), cands.Nodup →
    ∀ (db : DB) (fs : FS) (acc : List Str),
      (cands.foldl deleteOne (db, fs, acc)).2.2
          = acc ++ cands.filter (removalOk fs)
      ∧ (cands.foldl deleteOne (db, fs, acc)).1.files
          = db.files.filter (fun f => decide (f.path ∉ cands.filter (removalOk fs)))
      ∧ (cands.foldl deleteOne (db, fs, acc)).1.unreadable_files
          = db.unreadable_files
      ∧ (∀ q, (cands.foldl deleteOne (db, fs, acc)).2.1.present q
            = (fs.present q && !decide (q ∈ cands.filter (removalOk fs))))
      ∧ (∀ q, (cands.foldl deleteOne (db, fs, acc)).2.1.removable q
            = fs.removable q) := by
  intro cands
  induction cands with
  | nil =>
    intro _ db fs acc
    simp
  | cons p t ih =>
    intro hnd db fs acc
    have hp : p ∉ t := (List.nodup_cons.mp hnd).1
    have hndt : t.Nodup := (List.nodup_cons.mp hnd).2
    rw [List.foldl_cons]
    by_cases hpres : fs.present p = true
    · by_cases hrem : fs.removable p = true
      · -- the candidate is actually removed
        have hstep : deleteOne (db, fs, acc) p
            = (delete_record db p, os_remove fs p, acc ++ [p]) := by
          simp [deleteOne, hpres, hrem]
        rw [hstep]
        obtain ⟨ih1, ih2, ih3, ih4, ih5⟩ :=
          ih hndt (delete_record db p) (os_remove fs p) (acc ++ [p])
        have hft : t.filter (removalOk (os_remove fs p)) = t.filter (removalOk fs) := by
          apply List.filter_congr
          intro q hq
          have hqp : q ≠ p := fun h => hp (h ▸ hq)
          simp [removalOk, os_remove, hqp]
        have hfc : (p :: t).filter (removalOk fs) = p :: t.filter (removalOk fs) := by
          simp [List.filter_cons, removalOk, hpres, hrem]
        rw [hft] at ih1 ih2 ih4
        refine ⟨?_, ?_, ?_, ?_, ?_⟩
        · rw [ih1, hfc]
          simp
        · rw [ih2, hfc]
          show (List.filter _ db.files).filter _ = _
          rw [List.filter_filter]
          apply List.filter_congr
          intro f _
          by_cases h1 : f.path = p <;> by_cases h2 : f.path ∈ t.filter (removalOk fs) <;>
            simp [h1, h2, List.mem_cons]
        · exact ih3
        · intro q
          rw [ih4 q, hfc]
          by_cases hq : q = p
          · subst hq
            simp [os_remove, List.mem_cons]
          · simp [os_remove, hq, List.mem_cons]
        · intro q
          exact ih5 q
      · -- os.remove would fail: skip silently
        have hstep : deleteOne (db, fs, acc) p = (db, fs, acc) := by
          simp [deleteOne, hpres, hrem]
        have hfc : (p :: t).filter (removalOk fs) = t.filter (removalOk fs) := by
          simp [List.filter_cons, removalOk, hpres, hrem]
        rw [hstep, hfc]
        exact ih hndt db fs acc
    · -- the path no longer exists: skip silently
      have hstep : deleteOne (db, fs, acc) p = (db, fs, acc) := by
        simp [deleteOne, hpres]
      have hfc : (p :: t).filter (removalOk fs) = t.filter (removalOk fs) := by
        simp [List.filter_cons, removalOk, hpres]
      rw [hstep, hfc]
      exact ih hndt db fs acc

/-- Claim C2: with `dry_run = False`, the returned list holds exactly the
candidates actually removed from the filesystem: a candidate that no longer
exists, or whose removal fails, is skipped silently, never appears in the
result, and never aborts the batch; a candidate's `files` row is deleted
exactly when its removal succeeded; the audit table and every other path are
untouched. -/
theorem claim_C2_real_deletion (db : DB) (fs : FS) (keep_first : Bool)
    (hnd : pathsNodup db) :
    (delete_duplicates db fs keep_first false).2.2
        = (deleteCandidates keep_first (find_duplicates db)).filter (removalOk fs)
    ∧ (delete_duplicates db fs keep_first false).1.files
        = db.files.filter (fun f => decide (f.path ∉
            (deleteCandidates keep_first (find_duplicates db)).filter (removalOk fs)))
    ∧ (delete_duplicates db fs keep_first false).1.unreadable_files
        = db.unreadable_files
    ∧ (∀ q, (delete_duplicates db fs keep_first false).2.1.present q
          = (fs.present q && !decide (q ∈
              (deleteCandidates keep_first (find_duplicates db)).filter (removalOk fs))))
    ∧ (∀ q, (delete_duplicates db fs keep_first false).2.1.removable q
          = fs.removable q) := by
  have hcd := deleteCandidates_nodup hnd keep_first
  have hdf : delete_duplicates db fs keep_first false
      = (deleteCandidates keep_first (find_duplicates db)).foldl deleteOne (db, fs, []) :=
    rfl
  rw [hdf]
  obtain ⟨h1, h2, h3, h4, h5⟩ := deleteOne_foldl_spec _ hcd db fs []
  exact ⟨by rw [h1]; simp, h2, h3, h4, h5⟩

/-- Witness for C2 on the example store and filesystem: the only candidate is
`/b.txt`, whose removal fails, so nothing is removed or deleted. -/
theorem claim_C2_witness :
    (delete_duplicates exDB exFS true false).2.2
        = (deleteCandidates true (find_duplicates exDB)).filter (removalOk exFS)
    ∧ (delete_duplicates exDB exFS true false).1.files
        = exDB.files.filter (fun f => decide (f.path ∉
            (deleteCandidates true (find_duplicates exDB)).filter (removalOk exFS)))
    ∧ (delete_duplicates exDB exFS true false).1.unreadable_files
        = exDB.unreadable_files
    ∧ (∀ q, (delete_duplicates exDB exFS true false).2.1.present q
          = (exFS.present q && !decide (q ∈
              (deleteCandidates true (find_duplicates exDB)).filter (removalOk exFS))))
    ∧ (∀ q, (delete_duplicates exDB exFS true false).2.1.removable q
          = exFS.removable q) :=
  claim_C2_real_deletion exDB exFS true (by decide)

/-- Sums split pointwise over a map. -/
theorem sum_map_add (L : List Str) (A B : Str → Nat) :
    (L.map (fun e => A e + B e)).sum = (L.map A).sum + (L.map B).sum := by
  induction L with
  | nil => simp
  | cons b L ih =>
    simp [ih]
    omega

/-- Over a duplicate-free list containing `a`, the indicator of `a` sums
to one. -/
theorem sum_map_indicator {L : List Str} {a : Str} (hnd : L.Nodup) (ha : a ∈ L) :
    (L.map (fun e => if a = e then 1 else 0)).sum = 1 := by
  induction L with
  | nil => cases ha
  | cons b L ih =>
    rcases List.mem_cons.mp ha with h | h
    · subst h
      have hnin : a ∉ L := (List.nodup_cons.mp hnd).1
      have hz : (L.map (fun e => if a = e then 1 else 0)).sum = 0 := by
        apply List.sum_eq_zero
        intro x hx
        rcases List.mem_map.mp hx with ⟨e, he, rfl⟩
        have : a ≠ e := fun hae => hnin (hae ▸ he)
        simp [this]
      simp [hz]
    · have hba : b ≠ a := by
        intro hba
        exact (List.nodup_cons.mp hnd).1 (hba ▸ h)
      have := ih (List.nodup_cons.mp hnd).2 h
      simp [Ne.symm hba, this]

/-- Partition of the row count over the distinct extensions: summing the
per-extension row counts over the deduplicated extension list gives the total
number of rows. -/
theorem sum_dedup_filter_length (l : List FileRecord) :
    ((l.map (fun f => f.extension)).dedup.map
      (fun e => (l.filter (fun f => decide (f.extension = e))).length)).sum
      = l.length := by
  induction l with
  | nil => simp
  | cons f t ih =>
    rw [List.map_cons]
    have hsplit : ∀ e : Str,
        ((f :: t).filter (fun r => decide (r.extension = e))).length
          = (t.filter (fun r => decide (r.extension = e))).length
            + (if f.extension = e then 1 else 0) := by
      intro e
      by_cases h : f.extension = e <;> simp [List.filter_cons, h]
    by_cases hmem : f.extension ∈ t.map (fun r => r.extension)
    · rw [List.dedup_cons_of_mem hmem]
      rw [List.map_congr_left (fun e _ => hsplit e), sum_map_add, ih,
        sum_map_indicator (List.nodup_dedup _) (List.mem_dedup.mpr hmem)]
      simp
    · have hhead : ((f :: t).filter
          (fun r => decide (r.extension = f.extension))).length
            = 1 + (t.filter (fun r => decide (r.extension = f.extension))).length := by
        simp [List.filter_cons, Nat.add_comm]
      have htz : (t.filter (fun r => decide (r.extension = f.extension))).length = 0 := by
        rw [List.length_eq_zero]
        apply List.filter_eq_nil_iff.mpr
        intro r hr
        intro hdec
        exact hmem (List.mem_map.mpr ⟨r, hr, of_decide_eq_true hdec⟩)
      have hz : ((t.map (fun r => r.extension)).dedup.map
          (fun e => if f.extension = e then 1 else 0)).sum = 0 := by
        apply List.sum_eq_zero
        intro x hx
        rcases List.mem_map.mp hx with ⟨e, he, rfl⟩
        have : f.extension ≠ e := fun hfe => hmem (hfe ▸ List.mem_dedup.mp he)
        simp [this]
      rw [List.dedup_cons_of_not_mem hmem, List.map_cons,
        List.map_congr_left (fun e _ => hsplit e), List.sum_cons, sum_map_add, ih,
        hhead, htz, hz, List.length_cons]
      omega

/-- `keyOf` is the identity on extensions (the empty extension is stored as
the empty string, which is its own key). -/
theorem keyOf_eq_self (e : Str) : keyOf e = e := by
  by_cases h : e = [] <;> simp [keyOf, h]

/-- The extension keys reported by `get_statistics_by_extension` are the
distinct extensions in count-descending order. -/
theorem get_statistics_by_extension_keys (db : DB) :
    (get_statistics_by_extension db).map (fun pr => pr.1)
      = sortByCountDesc db ((db.files.map (fun f => f.extension)).dedup) := by
  unfold get_statistics_by_extension
  rw [List.map_map]
  have h1 : ((fun pr : Str × Nat × Nat => pr.1) ∘
      fun e => (keyOf e, extCount db e, extTotalSize db e)) = keyOf := rfl
  rw [h1, List.map_congr_left (fun e _ => keyOf_eq_self e)]
  exact List.map_id' _

/-- The counts reported by `get_statistics_by_extension`, in report order. -/
theorem get_statistics_by_extension_counts (db : DB) :
    (get_statistics_by_extension db).map (fun pr => pr.2.1)
      = (sortByCountDesc db ((db.files.map (fun f => f.extension)).dedup)).map
          (extCount db) := by
  unfold get_statistics_by_extension
  rw [List.map_map]
  exact List.map_congr_left (fun e _ => rfl)

/-- Claim C8: in the by-extension statistics every stored record is counted
under exactly one extension key (the keys repeat no extension and the
per-extension counts sum to `total_files`); records without an extension are
reported under the empty-string key rather than omitted; and the entries are
ordered by descending count. -/
theorem claim_C8_extension_stats (db : DB) :
    ((get_statistics_by_extension db).map (fun pr => pr.2.1)).Sorted (fun a b => b ≤ a)
    ∧ ((get_statistics_by_extension db).map (fun pr => pr.2.1)).sum = total_files db
    ∧ ((get_statistics_by_extension db).map (fun pr => pr.1)).Nodup
    ∧ ∀ f ∈ db.files,
        keyOf f.extension ∈ (get_statistics_by_extension db).map (fun pr => pr.1) := by
  have hKperm : (sortByCountDesc db ((db.files.map (fun f => f.extension)).dedup)).Perm
      ((db.files.map (fun f => f.extension)).dedup) := List.perm_insertionSort _ _
  refine ⟨?_, ?_, ?_, ?_⟩
  · rw [get_statistics_by_extension_counts]
    have hsor : List.Sorted (fun a b => extCount db b ≤ extCount db a)
        (sortByCountDesc db ((db.files.map (fun f => f.extension)).dedup)) := by
      haveI h1 : IsTotal Str (fun a b => extCount db b ≤ extCount db a) :=
        ⟨fun a b => (Nat.le_total (extCount db a) (extCount db b)).symm⟩
      haveI h2 : IsTrans Str (fun a b => extCount db b ≤ extCount db a) :=
        ⟨fun a b d hab hbc => Nat.le_trans hbc hab⟩
      exact List.sorted_insertionSort _ _
    exact List.pairwise_map.mpr hsor
  · rw [get_statistics_by_extension_counts, (hKperm.map (extCount db)).sum_eq]
    exact sum_dedup_filter_length db.files
  · rw [get_statistics_by_extension_keys]
    exact hKperm.nodup_iff.mpr (List.nodup_dedup _)
  · intro f hf
    rw [get_statistics_by_extension_keys, keyOf_eq_self]
    exact hKperm.mem_iff.mpr (List.mem_dedup.mpr (List.mem_map.mpr ⟨f, hf, rfl⟩))

/-- Witness for C8 on the example store, whose record `/c` has no extension:
its empty extension is reported under the empty-string key. -/
theorem claim_C8_witness :
    ((get_statistics_by_extension exDB).map (fun pr => pr.2.1)).Sorted (fun a b => b ≤ a)
    ∧ ((get_statistics_by_extension exDB).map (fun pr => pr.2.1)).sum = total_files exDB
    ∧ ((get_statistics_by_extension exDB).map (fun pr => pr.1)).Nodup
    ∧ keyOf exR3.extension ∈ (get_statistics_by_extension exDB).map (fun pr => pr.1) :=
  ⟨(claim_C8_extension_stats exDB).1, (claim_C8_extension_stats exDB).2.1,
    (claim_C8_extension_stats exDB).2.2.1,
    (claim_C8_extension_stats exDB).2.2.2 exR3 (by decide)⟩
